import Mathlib

/-!
Verification of the natural-language specification of the blazesym-based
symbolization engine against a shallow embedding.  The repository ships only
the C interface header (src/.output/blazesym.h); the engine itself (symbol
table index, ELF / kernel / process loaders, orchestrator) is not part of the
sources, so the definitions below are modelled from the specification text,
faithful to its words, and each such definition says so in its doc comment.
Addresses are modelled as natural numbers.
-/

/-- Modelled from the spec: the error taxonomy of section 7 for source load
failures, which is missing from the sources.  NotFound (path/pid does not
exist), PermissionDenied (exists but unreadable), MalformedContainer (exists,
readable, not a parseable binary/table), ProcessNotFound (pid vanished or
unreadable maps). -/
inductive LoadError where
  | NotFound
  | PermissionDenied
  | MalformedContainer
  | ProcessNotFound
deriving DecidableEq

/-- Modelled from the spec: SymbolTableEntry, (address, name, optional size);
the data model of section 3 is missing from the sources. -/
structure SymbolTableEntry where
  address : Nat
  name : String
  size : Option Nat
deriving DecidableEq

/-- Modelled from the spec: DebugLineEntry, (address, source_file, line,
column), missing from the sources. -/
structure DebugLineEntry where
  address : Nat
  source_file : String
  line : Nat
  column : Nat
deriving DecidableEq

/-- Modelled from the spec: SymbolMatch, (symbol_name, start_address,
optional source_file_path, optional line, optional column); absent optional
fields are a distinct none value, never a sentinel.  Missing from the
sources. -/
structure SymbolMatch where
  symbol_name : String
  start_address : Nat
  source_file_path : Option String
  line : Option Nat
  column : Option Nat
deriving DecidableEq

/-- Modelled from the spec: insertion of one entry into an address-sorted
table, replacing an existing entry with the same address so that the
last-inserted entry wins ties (section 4.1 construction).  Generic in the
key so the symbol table and the debug line table share it. -/
def insertByAddr (key : α → Nat) : List α → α → List α
  | [], e => [e]
  | x :: xs, e =>
    if key e < key x then e :: x :: xs
    else if key e = key x then e :: xs
    else x :: insertByAddr key xs e

/-- Modelled from the spec: symbol table construction (section 4.1), sorting
entries ascending by address with last-inserted-wins on duplicate
addresses.  Missing from the sources. -/
def buildByAddr (key : α → Nat) (entries : List α) : List α :=
  entries.foldl (insertByAddr key) []

/-- Modelled from the spec: the nearest-below search of section 4.1, finding
the entry with the greatest address at most the query address.  On a sorted
table this is the behaviour of the binary search; here it is the last
element in list order whose address is at most the query. -/
def findLastLe (key : α → Nat) : List α → Nat → Option α
  | [], _ => none
  | x :: xs, addr =>
    match findLastLe key xs addr with
    | some r => some r
    | none => if key x ≤ addr then some x else none

/-- Modelled from the spec: symbol table lookup (section 4.1).  Finds the
entry with the greatest address at most the query address; if that entry
carries a size, the query must also lie strictly below address + size,
otherwise the lookup reports no match. -/
def lookupSym (tbl : List SymbolTableEntry) (addr : Nat) : Option SymbolTableEntry :=
  match findLastLe SymbolTableEntry.address tbl addr with
  | none => none
  | some e =>
    match e.size with
    | none => some e
    | some sz => if addr < e.address + sz then some e else none

/-- Modelled from the spec: a Resolver (section 3) owns a SymbolTable and an
optional DebugLineEntry table for exactly one source.  Missing from the
sources. -/
structure Resolver where
  table : List SymbolTableEntry
  debug : Option (List DebugLineEntry)
deriving DecidableEq

/-- Modelled from the spec: one resolver query (sections 4.1 and 4.5).  A
matched symbol yields one SymbolMatch, enriched best-effort with debug line
data when a debug table is present and covers the address; no match yields
the empty list, never an error. -/
def resolveAddr (r : Resolver) (addr : Nat) : List SymbolMatch :=
  match lookupSym r.table addr with
  | none => []
  | some e =>
    match r.debug.bind (fun dl => findLastLe DebugLineEntry.address dl addr) with
    | none => [⟨e.name, e.address, none, none, none⟩]
    | some d => [⟨e.name, e.address, some d.source_file, some d.line, some d.column⟩]

/-- Modelled from the spec: one symbol record of an object file symbol table
(section 4.2): name, link-time address, optional size, and whether the
symbol is defined (undefined/external symbols are discarded).  The ELF
loader itself is missing from the sources. -/
structure ElfSymbol where
  name : String
  address : Nat
  size : Option Nat
  defined : Bool
deriving DecidableEq

/-- Modelled from the spec: the parsed content of an object file (section
4.2): its symbol records and, when debug information is present, its debug
line records.  Missing from the sources. -/
structure ElfFile where
  symbols : List ElfSymbol
  debugLines : Option (List DebugLineEntry)
deriving DecidableEq

/-- Modelled from the spec: the ELF source loader (section 4.2), missing from
the sources.  Keeps defined symbols, adjusts every extracted address by the
load base address to translate from link-time to runtime address space, and
indexes the optional debug line table the same way. -/
def loadElf (f : ElfFile) (base : Nat) : Resolver :=
  { table := buildByAddr SymbolTableEntry.address
      ((f.symbols.filter (fun s => s.defined)).map
        (fun s => ⟨s.address + base, s.name, s.size⟩)),
    debug := f.debugLines.map (fun dl => buildByAddr DebugLineEntry.address
      (dl.map (fun d => { d with address := d.address + base }))) }

/-- Modelled from the spec: one tokenized line of a kallsyms text table
(section 4.3): address, type character, name, optional module.  The kernel
loader is missing from the sources. -/
structure KallsymsLine where
  address : Nat
  ty : Char
  name : String
  moduleName : Option String
deriving DecidableEq

/-- Modelled from the spec: kallsyms table construction (section 4.3),
missing from the sources.  Lines with address zero (the unprivileged view)
are skipped rather than treated as valid zero-address symbols; kallsyms
entries carry no size. -/
def parseKallsyms (lines : List KallsymsLine) : List SymbolTableEntry :=
  buildByAddr SymbolTableEntry.address
    ((lines.filter (fun l => l.address ≠ 0)).map (fun l => ⟨l.address, l.name, none⟩))

/-- Modelled from the spec: the KSymResolver of the C interface, the symbol
resolver for a kallsyms snapshot; its implementation is missing from the
sources.  It owns its symbol table, names included. -/
structure KSymResolver where
  table : List SymbolTableEntry
deriving DecidableEq

/-- Modelled from the spec: construction of a KSymResolver from a kallsyms
snapshot (section 4.3), missing from the sources. -/
def ksymResolverOfLines (lines : List KallsymsLine) : KSymResolver :=
  ⟨parseKallsyms lines⟩

/-- Modelled from the spec: sym_resolver_find_addr of the C interface, whose
implementation is missing from the sources.  Finds the symbol of a given
address if there is one; none models the null pointer return.  The returned
string is one the resolver owns (a name stored in its table). -/
def sym_resolver_find_addr (r : KSymResolver) (addr : Nat) : Option String :=
  (lookupSym r.table addr).map (fun e => e.name)

/-- Modelled from the spec: one record of a process memory-map snapshot
(section 4.4), missing from the sources: backing file path (empty when the
mapping is not file backed), start virtual address, and whether the mapping
is executable and file backed. -/
structure ProcMapRecord where
  path : String
  start : Nat
  isExec : Bool
  fileBacked : Bool
deriving DecidableEq

/-- Modelled from the spec: extraction of one record per distinct
executable-mapped backing file (section 4.4): (file path, lowest mapped
virtual address for that file among its executable mappings).
Non-file-backed or non-executable mappings are ignored. -/
def execBases (maps : List ProcMapRecord) : List (String × Nat) :=
  (maps.filter (fun r => r.isExec && r.fileBacked)).foldl
    (fun acc r =>
      if acc.any (fun p => p.1 == r.path) then
        acc.map (fun p => if p.1 == r.path then (p.1, min p.2 r.start) else p)
      else acc ++ [(r.path, r.start)])
    []

/-- Modelled from the spec: SourceDescriptor (section 3), the tagged variant
of symbol sources, mirroring sym_src_cfg of the header.  Missing from the
sources. -/
inductive SourceDescriptor where
  | elf (file_name : String) (base_address : Nat)
  | kernel (kallsyms : Option String) (kernel_image : Option String)
  | process (pid : Nat)
deriving DecidableEq

/-- Modelled from the spec: the environment the loaders read from, since the
file system and the process table are outside the sources.  Reading a path
either yields parsed content or a LoadError; reading a process map snapshot
yields its records or fails. -/
structure World where
  elfFiles : String → Except LoadError ElfFile
  kallsymsFiles : String → Except LoadError (List KallsymsLine)
  procMaps : Nat → Except LoadError (List ProcMapRecord)

/-- Modelled from the spec: the kernel source loader (section 4.3), missing
from the sources.  The kallsyms path defaults to /proc/kallsyms; a kernel
image, when given or auto-located under the well-known boot directories, is
parsed for debug line information only, with no base translation; debug
info is best-effort and its failure does not fail the load. -/
def loadKernel (w : World) (kallsymsPath : Option String) (imagePath : Option String) :
    Except LoadError Resolver :=
  match w.kallsymsFiles (kallsymsPath.getD "/proc/kallsyms") with
  | .error e => .error e
  | .ok lines =>
    let candidates := match imagePath with
      | some p => [p]
      | none => ["/boot/vmlinux", "/usr/lib/debug/boot/vmlinux"]
    let dbg : Option (List DebugLineEntry) :=
      (candidates.findSome? (fun p => (w.elfFiles p).toOption)).bind
        (fun f => f.debugLines.map (buildByAddr DebugLineEntry.address))
    .ok { table := parseKallsyms lines, debug := dbg }

/-- Modelled from the spec: the process source loader (section 4.4), missing
from the sources.  Parses the memory-map snapshot, invokes the ELF loader
for each distinct executable-mapped backing file with its lowest mapped
address as base; an unreadable map fails with ProcessNotFound. -/
def loadProcess (w : World) (pid : Nat) : Except LoadError (List Resolver) :=
  match w.procMaps pid with
  | .error _ => .error .ProcessNotFound
  | .ok maps =>
    (execBases maps).mapM (fun pb =>
      match w.elfFiles pb.1 with
      | .error e => .error e
      | .ok f => .ok (loadElf f pb.2))

/-- Modelled from the spec: per-descriptor resolver construction (section
4.5), dispatching on the source kind; missing from the sources. -/
def loadSource (w : World) : SourceDescriptor → Except LoadError (List Resolver)
  | .elf p b =>
    match w.elfFiles p with
    | .error e => .error e
    | .ok f => .ok [loadElf f b]
  | .kernel kp ip =>
    match loadKernel w kp ip with
    | .error e => .error e
    | .ok r => .ok [r]
  | .process pid => loadProcess w pid

/-- Modelled from the spec: construction of the resolvers of every
configured source, in descriptor order (section 4.5); the first load
failure fails the whole construction. -/
def loadAll (w : World) (srcs : List SourceDescriptor) : Except LoadError (List Resolver) :=
  match srcs with
  | [] => .ok []
  | s :: rest =>
    match loadSource w s with
    | .error e => .error e
    | .ok rs =>
      match loadAll w rest with
      | .error e => .error e
      | .ok rest2 => .ok (rs ++ rest2)

/-- Modelled from the spec: the match list of one address (section 4.5): all
non-empty matches across all sources, concatenated in descriptor order; no
match yields the empty list. -/
def perAddress (resolvers : List Resolver) (addr : Nat) : List SymbolMatch :=
  resolvers.flatMap (fun r => resolveAddr r addr)

/-- Modelled from the spec: the symbolizer orchestrator (section 4.5),
missing from the sources.  Loads every configured source first; if one
fails, that failure is surfaced and no address is processed.  Otherwise
every input address, in order, gets one match list. -/
def symbolize (w : World) (srcs : List SourceDescriptor) (addrs : List Nat) :
    Except LoadError (List (List SymbolMatch)) :=
  match loadAll w srcs with
  | .error e => .error e
  | .ok resolvers => .ok (addrs.map (fun a => perAddress resolvers a))

/-- The blazesym_csym record of the C header (src/.output/blazesym.h lines
67-88): symbol name, start address already relocated to the address space of
the process, and the source path / line / column fields.  The path is a
nullable pointer, modelled as an Option; line_no and column are plain
machine words in the header and are modelled as plain naturals. -/
structure blazesym_csym where
  symbol : String
  start_address : Nat
  path : Option String
  line_no : Nat
  column : Nat
deriving DecidableEq

/-- The blazesym_entry record of the C header (lines 96-107): the number of
symbols found for an address, and the array syms of blazesym_csym of that
size, modelled as a list together with the explicit size field. -/
structure blazesym_entry where
  size : Nat
  syms : List blazesym_csym
deriving DecidableEq

/-- The blazesym_result record of the C header (lines 116-126): the number
of entries, and one entry per input address in the same order. -/
structure blazesym_result where
  size : Nat
  entries : List blazesym_entry
deriving DecidableEq

/-- Modelled from the spec: the flattening of one SymbolMatch into the C
record, owned by the out-of-scope wrapper layer (section 6); the flat
line_no and column words carry zero when the optional field is absent. -/
def csymOfMatch (m : SymbolMatch) : blazesym_csym :=
  ⟨m.symbol_name, m.start_address, m.source_file_path, m.line.getD 0, m.column.getD 0⟩

/-- Modelled from the spec: the flattening of one match list into a
blazesym_entry, its size field set to the number of symbols found. -/
def entryOfMatches (ms : List SymbolMatch) : blazesym_entry :=
  ⟨ms.length, ms.map csymOfMatch⟩

/-- Modelled from the spec: the flattening of a QueryResult into a
blazesym_result, one entry per input address in input order. -/
def resultOfQuery (qr : List (List SymbolMatch)) : blazesym_result :=
  ⟨qr.length, qr.map entryOfMatches⟩

/-- Modelled from the spec: blazesym_symbolize of the C interface, whose
implementation is missing from the sources.  Runs the orchestrator and
flattens its result; none models the null pointer returned on failure. -/
def blazesym_symbolize (w : World) (srcs : List SourceDescriptor) (addrs : List Nat) :
    Option blazesym_result :=
  match symbolize w srcs addrs with
  | .error _ => none
  | .ok qr => some (resultOfQuery qr)

/-- Shift of one symbol table entry into a runtime address space. -/
def shiftEntry (B : Nat) (e : SymbolTableEntry) : SymbolTableEntry :=
  { e with address := e.address + B }

/-- Shift of one debug line entry into a runtime address space. -/
def shiftLine (B : Nat) (d : DebugLineEntry) : DebugLineEntry :=
  { d with address := d.address + B }

/-- Shift of one symbol match into a runtime address space. -/
def shiftMatch (B : Nat) (m : SymbolMatch) : SymbolMatch :=
  { m with start_address := m.start_address + B }

/-- Test fixture: a parsed object file with two defined symbols, one
undefined symbol, and one debug line record (the scenario of the spec,
section 8). -/
def testFile : ElfFile :=
  { symbols := [⟨"foo", 0x10, some 0x20, true⟩, ⟨"bar", 0x40, none, true⟩,
                ⟨"und", 0x50, none, false⟩],
    debugLines := some [⟨0x10, "a.c", 5, 2⟩] }

/-- Test fixture: a parsed object file with one symbol and no debug
information. -/
def testFilePlain : ElfFile :=
  { symbols := [⟨"bar", 0x40, none, true⟩], debugLines := none }

/-- Test fixture: a kallsyms snapshot holding an address-zero line and one
real symbol. -/
def testKallsyms : List KallsymsLine :=
  [⟨0, 'A', "zero_sym", none⟩, ⟨0x100, 'T', "kfunc", none⟩]

/-- Test fixture: a process memory-map snapshot with one executable
file-backed mapping and one anonymous executable mapping. -/
def testMaps : List ProcMapRecord :=
  [⟨"/bin/app", 0x555000, true, true⟩, ⟨"", 0x600000, true, false⟩]

/-- Test fixture: an environment holding two object files, a kallsyms
snapshot and one process; everything else fails to load. -/
def testWorld : World :=
  { elfFiles := fun p =>
      if p = "/bin/app" then .ok testFile
      else if p = "/bin/plain" then .ok testFilePlain
      else .error .NotFound,
    kallsymsFiles := fun p =>
      if p = "/proc/kallsyms" then .ok testKallsyms else .error .PermissionDenied,
    procMaps := fun pid => if pid = 7 then .ok testMaps else .error .NotFound }

/-- Test fixture: two identical ELF descriptors, so a matched address gets
several matches. -/
def c1srcs : List SourceDescriptor :=
  [.elf "/bin/app" 0x1000, .elf "/bin/app" 0x1000]

/-- Test fixture: one address with no match and one with several. -/
def c1addrs : List Nat := [0x5, 0x1015]

/-- Test fixture: the expected query result for c1srcs and c1addrs. -/
def c1res : List (List SymbolMatch) :=
  [[], [⟨"foo", 0x1010, some "a.c", some 5, some 2⟩,
        ⟨"foo", 0x1010, some "a.c", some 5, some 2⟩]]

/-- Test fixture: a symbol table with one sized entry. -/
def c2tbl : List SymbolTableEntry :=
  buildByAddr SymbolTableEntry.address [⟨0x10, "foo", some 0x20⟩]

/-- Test fixture: two entries inserted at the same address. -/
def c8entries : List SymbolTableEntry :=
  [⟨0x5, "first", none⟩, ⟨0x5, "second", none⟩]

/-- Test fixture: the expected flattened C result for one unmatched and one
matched address. -/
def c9res : blazesym_result :=
  ⟨2, [⟨0, []⟩, ⟨1, [⟨"foo", 0x1010, some "a.c", 5, 2⟩]⟩]⟩

/-- A table is sorted when its keys are strictly ascending in list order. -/
abbrev SortedBy (key : α → Nat) (l : List α) : Prop :=
  l.Pairwise (fun a b => key a < key b)

theorem mem_insertByAddr {key : α → Nat} {l : List α} {e y : α}
    (h : y ∈ insertByAddr key l e) : y = e ∨ y ∈ l := by
  induction l with
  | nil => simpa [insertByAddr] using h
  | cons x xs ih =>
    by_cases h1 : key e < key x
    · simpa [insertByAddr, if_pos h1] using h
    · by_cases h2 : key e = key x
      · simp only [insertByAddr, if_neg h1, if_pos h2] at h
        rcases List.mem_cons.mp h with h3 | h3
        · exact Or.inl h3
        · exact Or.inr (List.mem_cons_of_mem _ h3)
      · simp only [insertByAddr, if_neg h1, if_neg h2] at h
        rcases List.mem_cons.mp h with h3 | h3
        · exact Or.inr (h3 ▸ List.mem_cons_self _ _)
        · rcases ih h3 with h4 | h4
          · exact Or.inl h4
          · exact Or.inr (List.mem_cons_of_mem _ h4)

theorem insertByAddr_sorted {key : α → Nat} {l : List α} (e : α)
    (h : SortedBy key l) : SortedBy key (insertByAddr key l e) := by
  induction l with
  | nil => simp [insertByAddr]
  | cons x xs ih =>
    rcases List.pairwise_cons.mp h with ⟨hx, hxs⟩
    by_cases h1 : key e < key x
    · simp only [insertByAddr, if_pos h1]
      refine List.Pairwise.cons ?_ h
      intro y hy
      rcases List.mem_cons.mp hy with rfl | hy2
      · exact h1
      · exact lt_trans h1 (hx y hy2)
    · by_cases h2 : key e = key x
      · simp only [insertByAddr, if_neg h1, if_pos h2]
        refine List.Pairwise.cons ?_ hxs
        intro y hy
        rw [h2]
        exact hx y hy
      · simp only [insertByAddr, if_neg h1, if_neg h2]
        refine List.Pairwise.cons ?_ (ih hxs)
        intro y hy
        rcases mem_insertByAddr hy with rfl | hy2
        · omega
        · exact hx y hy2

theorem foldl_insert_sorted {key : α → Nat} (l : List α) :
    ∀ acc : List α, SortedBy key acc → SortedBy key (l.foldl (insertByAddr key) acc) := by
  induction l with
  | nil => intro acc h; simpa using h
  | cons e es ih => intro acc h; exact ih _ (insertByAddr_sorted e h)

theorem buildByAddr_sorted (key : α → Nat) (l : List α) :
    SortedBy key (buildByAddr key l) :=
  foldl_insert_sorted l [] List.Pairwise.nil

theorem mem_foldl_insert {key : α → Nat} {l : List α} {y : α} :
    ∀ {acc : List α}, y ∈ l.foldl (insertByAddr key) acc → y ∈ acc ∨ y ∈ l := by
  induction l with
  | nil => intro acc h; exact Or.inl (by simpa using h)
  | cons e es ih =>
    intro acc h
    rcases ih h with h1 | h2
    · rcases mem_insertByAddr h1 with rfl | h3
      · exact Or.inr (List.mem_cons_self _ _)
      · exact Or.inl h3
    · exact Or.inr (List.mem_cons_of_mem _ h2)

theorem mem_buildByAddr {key : α → Nat} {l : List α} {y : α}
    (h : y ∈ buildByAddr key l) : y ∈ l := by
  rcases mem_foldl_insert h with h1 | h2
  · simp at h1
  · exact h2

theorem findLastLe_le {key : α → Nat} {l : List α} {addr : Nat} {e : α}
    (h : findLastLe key l addr = some e) : key e ≤ addr := by
  induction l with
  | nil => simp [findLastLe] at h
  | cons x xs ih =>
    cases hxs : findLastLe key xs addr with
    | some r =>
      simp only [findLastLe, hxs] at h
      cases h
      exact ih hxs
    | none =>
      simp only [findLastLe, hxs] at h
      by_cases hx : key x ≤ addr
      · rw [if_pos hx] at h
        cases h
        exact hx
      · rw [if_neg hx] at h
        cases h

theorem findLastLe_mem {key : α → Nat} {l : List α} {addr : Nat} {e : α}
    (h : findLastLe key l addr = some e) : e ∈ l := by
  induction l with
  | nil => simp [findLastLe] at h
  | cons x xs ih =>
    cases hxs : findLastLe key xs addr with
    | some r =>
      simp only [findLastLe, hxs] at h
      cases h
      exact List.mem_cons_of_mem _ (ih hxs)
    | none =>
      simp only [findLastLe, hxs] at h
      by_cases hx : key x ≤ addr
      · rw [if_pos hx] at h
        cases h
        exact List.mem_cons_self _ _
      · rw [if_neg hx] at h
        cases h

theorem findLastLe_none {key : α → Nat} {l : List α} {addr : Nat}
    (h : findLastLe key l addr = none) : ∀ e ∈ l, addr < key e := by
  induction l with
  | nil => simp
  | cons x xs ih =>
    intro e he
    cases hxs : findLastLe key xs addr with
    | some r => simp [findLastLe, hxs] at h
    | none =>
      simp only [findLastLe, hxs] at h
      by_cases hx : key x ≤ addr
      · rw [if_pos hx] at h
        cases h
      · rcases List.mem_cons.mp he with rfl | he2
        · omega
        · exact ih hxs e he2

theorem findLastLe_greatest {key : α → Nat} {l : List α} {addr : Nat}
    (hs : SortedBy key l) :
    ∀ e, findLastLe key l addr = some e → ∀ y ∈ l, key y ≤ addr → key y ≤ key e := by
  induction hs with
  | nil => simp [findLastLe]
  | @cons x xs hx hxs ih =>
    intro e h y hy hyle
    cases hxs2 : findLastLe key xs addr with
    | some r =>
      simp only [findLastLe, hxs2] at h
      cases h
      rcases List.mem_cons.mp hy with rfl | hy2
      · exact le_of_lt (hx e (findLastLe_mem hxs2))
      · exact ih e hxs2 y hy2 hyle
    | none =>
      simp only [findLastLe, hxs2] at h
      by_cases hxa : key x ≤ addr
      · rw [if_pos hxa] at h
        cases h
        rcases List.mem_cons.mp hy with rfl | hy2
        · exact le_refl _
        · exact absurd hyle (by have := findLastLe_none hxs2 y hy2; omega)
      · rw [if_neg hxa] at h
        cases h

theorem sortedBy_key_inj {key : α → Nat} {l : List α} (hs : SortedBy key l) :
    ∀ x ∈ l, ∀ y ∈ l, key x = key y → x = y := by
  induction hs with
  | nil => simp
  | @cons a as ha has ih =>
    intro x hx y hy hk
    rcases List.mem_cons.mp hx with rfl | hx2
    · rcases List.mem_cons.mp hy with rfl | hy2
      · rfl
      · exact absurd hk (by have := ha y hy2; omega)
    · rcases List.mem_cons.mp hy with rfl | hy2
      · exact absurd hk (by have := ha x hx2; omega)
      · exact ih x hx2 y hy2 hk

theorem insertByAddr_find_self {key : α → Nat} (l : List α) (e : α) :
    (insertByAddr key l e).find? (fun x => key x == key e) = some e := by
  induction l with
  | nil => simp [insertByAddr, List.find?]
  | cons x xs ih =>
    by_cases h1 : key e < key x
    · simp [insertByAddr, if_pos h1, List.find?]
    · by_cases h2 : key e = key x
      · simp [insertByAddr, if_neg h1, if_pos h2, List.find?]
      · have h3 : (key x == key e) = false := by simp; omega
        simp [insertByAddr, if_neg h1, if_neg h2, List.find?, h3, ih]

theorem insertByAddr_find_ne {key : α → Nat} (l : List α) (e : α) {a : Nat}
    (h : a ≠ key e) :
    (insertByAddr key l e).find? (fun x => key x == a)
      = l.find? (fun x => key x == a) := by
  have he : (key e == a) = false := by simp; omega
  induction l with
  | nil => simp [insertByAddr, List.find?, he]
  | cons x xs ih =>
    by_cases h1 : key e < key x
    · simp [insertByAddr, if_pos h1, List.find?, he]
    · by_cases h2 : key e = key x
      · have hx : (key x == a) = false := by simp; omega
        simp [insertByAddr, if_neg h1, if_pos h2, List.find?, he, hx]
      · by_cases hx : key x == a
        · simp [insertByAddr, if_neg h1, if_neg h2, List.find?, hx]
        · have hx2 : (key x == a) = false := by simpa using hx
          simp only [insertByAddr, if_neg h1, if_neg h2, List.find?, hx2]
          exact ih

theorem foldl_insert_find {key : α → Nat} (l : List α) (a : Nat) :
    ∀ acc : List α,
      (l.foldl (insertByAddr key) acc).find? (fun x => key x == a)
      = match l.reverse.find? (fun x => key x == a) with
        | some r => some r
        | none => acc.find? (fun x => key x == a) := by
  induction l with
  | nil => intro acc; simp
  | cons e es ih =>
    intro acc
    simp only [List.foldl_cons, List.reverse_cons]
    rw [ih]
    rw [List.find?_append]
    cases hr : es.reverse.find? (fun x => key x == a) with
    | some r => simp [Option.or]
    | none =>
      simp only [Option.none_or]
      by_cases hpe : key e = a
      · subst hpe
        have h4 : [e].find? (fun x => key x == key e) = some e := by simp [List.find?]
        simp only [h4]
        exact insertByAddr_find_self acc e
      · have hfe : (key e == a) = false := by simp; omega
        have h4 : [e].find? (fun x => key x == a) = none := by simp [List.find?, hfe]
        simp only [h4]
        exact insertByAddr_find_ne acc e (fun hh => hpe hh.symm)

theorem buildByAddr_find {key : α → Nat} (l : List α) (a : Nat) :
    (buildByAddr key l).find? (fun x => key x == a)
      = l.reverse.find? (fun x => key x == a) := by
  rw [buildByAddr, foldl_insert_find]
  cases hr : l.reverse.find? (fun x => key x == a) <;> simp

theorem insertByAddr_map_shift {key : α → Nat} {f : α → α} {B : Nat}
    (hf : ∀ x, key (f x) = key x + B) (l : List α) (e : α) :
    insertByAddr key (l.map f) (f e) = (insertByAddr key l e).map f := by
  induction l with
  | nil => simp [insertByAddr]
  | cons x xs ih =>
    by_cases h1 : key e < key x
    · simp only [List.map_cons, insertByAddr, if_pos h1,
        if_pos (show key (f e) < key (f x) by rw [hf, hf]; omega)]
    · by_cases h2 : key e = key x
      · simp only [List.map_cons, insertByAddr, if_neg h1, if_pos h2,
          if_neg (show ¬ key (f e) < key (f x) by rw [hf, hf]; omega),
          if_pos (show key (f e) = key (f x) by rw [hf, hf]; omega)]
      · simp only [List.map_cons, insertByAddr, if_neg h1, if_neg h2,
          if_neg (show ¬ key (f e) < key (f x) by rw [hf, hf]; omega),
          if_neg (show ¬ key (f e) = key (f x) by rw [hf, hf]; omega), ih]

theorem foldl_insert_map_shift {key : α → Nat} {f : α → α} {B : Nat}
    (hf : ∀ x, key (f x) = key x + B) (l : List α) :
    ∀ acc : List α,
      (l.map f).foldl (insertByAddr key) (acc.map f)
        = (l.foldl (insertByAddr key) acc).map f := by
  induction l with
  | nil => intro acc; simp
  | cons e es ih =>
    intro acc
    simp only [List.map_cons, List.foldl_cons]
    rw [insertByAddr_map_shift hf]
    exact ih _

theorem buildByAddr_map_shift {key : α → Nat} {f : α → α} {B : Nat}
    (hf : ∀ x, key (f x) = key x + B) (l : List α) :
    buildByAddr key (l.map f) = (buildByAddr key l).map f := by
  have h := foldl_insert_map_shift hf l []
  simpa [buildByAddr] using h

theorem findLastLe_map_shift {key : α → Nat} {f : α → α} {B : Nat}
    (hf : ∀ x, key (f x) = key x + B) (l : List α) (addr : Nat) :
    findLastLe key (l.map f) (addr + B) = (findLastLe key l addr).map f := by
  induction l with
  | nil => simp [findLastLe]
  | cons x xs ih =>
    cases hr : findLastLe key xs addr with
    | some r =>
      simp only [List.map_cons, findLastLe, ih, hr, Option.map]
    | none =>
      simp only [List.map_cons, findLastLe, ih, hr, Option.map]
      by_cases hx : key x ≤ addr
      · rw [if_pos hx, if_pos (show key (f x) ≤ addr + B by rw [hf]; omega)]
      · rw [if_neg hx, if_neg (show ¬ key (f x) ≤ addr + B by rw [hf]; omega)]


theorem loadElf_table_shift (f : ElfFile) (B : Nat) :
    (loadElf f B).table = ((loadElf f 0).table).map (shiftEntry B) := by
  show buildByAddr SymbolTableEntry.address ((f.symbols.filter (fun s => s.defined)).map
        (fun s => ⟨s.address + B, s.name, s.size⟩))
      = (buildByAddr SymbolTableEntry.address ((f.symbols.filter (fun s => s.defined)).map
        (fun s => ⟨s.address + 0, s.name, s.size⟩))).map (shiftEntry B)
  rw [← buildByAddr_map_shift
    (show ∀ x : SymbolTableEntry, (shiftEntry B x).address = x.address + B from fun x => rfl)]
  rw [List.map_map]
  rfl

theorem lookupSym_map_shift (tbl : List SymbolTableEntry) (B addr : Nat) :
    lookupSym (tbl.map (shiftEntry B)) (addr + B) = (lookupSym tbl addr).map (shiftEntry B) := by
  unfold lookupSym
  rw [findLastLe_map_shift
    (show ∀ x : SymbolTableEntry, (shiftEntry B x).address = x.address + B from fun x => rfl)]
  cases hr : findLastLe SymbolTableEntry.address tbl addr with
  | none => rfl
  | some e =>
    simp only [Option.map]
    cases hsz : e.size with
    | none => simp [shiftEntry, hsz]
    | some sz =>
      simp only [shiftEntry, hsz]
      by_cases hlt : addr < e.address + sz
      · rw [if_pos hlt, if_pos (show addr + B < e.address + B + sz by omega)]
        simp [hsz]
      · rw [if_neg hlt, if_neg (show ¬ addr + B < e.address + B + sz by omega)]

theorem loadElf_debug_find_shift (f : ElfFile) (B a : Nat) :
    (loadElf f B).debug.bind (fun dl => findLastLe DebugLineEntry.address dl (a + B))
      = ((loadElf f 0).debug.bind
          (fun dl => findLastLe DebugLineEntry.address dl a)).map (shiftLine B) := by
  cases hfd : f.debugLines with
  | none => simp [loadElf, hfd]
  | some dl =>
    simp only [loadElf, hfd, Option.map, Option.bind]
    have h1 : dl.map (fun d => { d with address := d.address + B })
        = (dl.map (fun d => { d with address := d.address + 0 })).map (shiftLine B) := by
      rw [List.map_map]
      rfl
    rw [h1, buildByAddr_map_shift
        (show ∀ x : DebugLineEntry, (shiftLine B x).address = x.address + B from fun x => rfl),
      findLastLe_map_shift
        (show ∀ x : DebugLineEntry, (shiftLine B x).address = x.address + B from fun x => rfl)]
    cases findLastLe DebugLineEntry.address
        (buildByAddr DebugLineEntry.address
          (dl.map (fun d => { d with address := d.address + 0 }))) a <;> rfl

theorem resolveAddr_loadElf_shift (f : ElfFile) (B a : Nat) :
    resolveAddr (loadElf f B) (a + B) = (resolveAddr (loadElf f 0) a).map (shiftMatch B) := by
  unfold resolveAddr
  rw [loadElf_table_shift f B, lookupSym_map_shift, loadElf_debug_find_shift]
  cases he : lookupSym (loadElf f 0).table a with
  | none => rfl
  | some e =>
    cases hd : (loadElf f 0).debug.bind (fun dl => findLastLe DebugLineEntry.address dl a) with
    | none => simp [shiftEntry, shiftMatch, Option.map]
    | some d => simp [shiftEntry, shiftLine, shiftMatch, Option.map]

theorem perAddress_nil_of_all_nil {rs : List Resolver} {a : Nat}
    (h : ∀ r ∈ rs, resolveAddr r a = []) : perAddress rs a = [] := by
  simp only [perAddress, List.flatMap_eq_nil_iff]
  exact h

theorem symbolize_ok_shape {w : World} {srcs : List SourceDescriptor} {addrs : List Nat}
    {res : List (List SymbolMatch)} (h : symbolize w srcs addrs = .ok res) :
    ∃ rs, loadAll w srcs = .ok rs ∧ res = addrs.map (fun a => perAddress rs a) := by
  unfold symbolize at h
  cases hla : loadAll w srcs with
  | error e => rw [hla] at h; cases h
  | ok rs =>
    rw [hla] at h
    cases h
    exact ⟨rs, rfl, rfl⟩

theorem loadAll_error_of_mem (w : World) (srcs : List SourceDescriptor)
    (h : ∃ s ∈ srcs, ∃ e, loadSource w s = .error e) :
    ∃ e2, loadAll w srcs = .error e2 := by
  induction srcs with
  | nil =>
    rcases h with ⟨s, hs, _⟩
    cases hs
  | cons s rest ih =>
    rcases h with ⟨s0, hs0, e, he⟩
    rcases List.mem_cons.mp hs0 with rfl | hmem
    · exact ⟨e, by simp [loadAll, he]⟩
    · cases hls : loadSource w s with
      | error e2 => exact ⟨e2, by simp [loadAll, hls]⟩
      | ok rs =>
        rcases ih ⟨s0, hmem, e, he⟩ with ⟨e2, h2⟩
        exact ⟨e2, by simp [loadAll, hls, h2]⟩

/-- Claim C1: every successful blazesym_symbolize call returns one match
list per input address, in the same order as the input addresses: the
result has exactly the length of the address list and its i-th match list
is the concatenated matches of the loaded resolvers for the i-th address;
this holds whether an address has zero, one or several matches. -/
theorem c1_result_per_address_in_order (w : World) (srcs : List SourceDescriptor)
    (addrs : List Nat) (res : List (List SymbolMatch))
    (h : symbolize w srcs addrs = .ok res) :
    res.length = addrs.length ∧
    ∃ resolvers, loadAll w srcs = .ok resolvers ∧
      ∀ i (hi : i < res.length) (hj : i < addrs.length),
        res.get ⟨i, hi⟩ = perAddress resolvers (addrs.get ⟨i, hj⟩) := by
  rcases symbolize_ok_shape h with ⟨rs, hla, rfl⟩
  refine ⟨by simp, rs, hla, ?_⟩
  intro i hi hj
  simp [List.get_eq_getElem]

/-- Witness for C1 at a concrete batch: the first address has zero matches,
the second has two (one per configured source), and the result keeps the
input order and cardinality. -/
theorem c1_result_per_address_in_order_witness :
    symbolize testWorld c1srcs c1addrs = .ok c1res ∧
    (c1res.length = c1addrs.length ∧
      ∃ resolvers, loadAll testWorld c1srcs = .ok resolvers ∧
        ∀ i (hi : i < c1res.length) (hj : i < c1addrs.length),
          c1res.get ⟨i, hi⟩ = perAddress resolvers (c1addrs.get ⟨i, hj⟩)) :=
  ⟨by rfl, c1_result_per_address_in_order testWorld c1srcs c1addrs c1res (by rfl)⟩

theorem lookupSym_some_spec {tbl : List SymbolTableEntry} {addr : Nat} {e : SymbolTableEntry}
    (hs : SortedBy SymbolTableEntry.address tbl) (he : lookupSym tbl addr = some e) :
    e ∈ tbl ∧ e.address ≤ addr ∧
    (∀ y ∈ tbl, y.address ≤ addr → y.address ≤ e.address) ∧
    ∀ sz, e.size = some sz → addr < e.address + sz := by
  unfold lookupSym at he
  cases hf : findLastLe SymbolTableEntry.address tbl addr with
  | none =>
    simp only [hf] at he
    cases he
  | some r =>
    simp only [hf] at he
    cases hsz : r.size with
    | none =>
      simp only [hsz] at he
      cases he
      exact ⟨findLastLe_mem hf, findLastLe_le hf, findLastLe_greatest hs _ hf,
        fun sz h2 => by rw [hsz] at h2; cases h2⟩
    | some sz =>
      simp only [hsz] at he
      by_cases hlt : addr < r.address + sz
      · rw [if_pos hlt] at he
        cases he
        refine ⟨findLastLe_mem hf, findLastLe_le hf, findLastLe_greatest hs _ hf, ?_⟩
        intro sz2 h2
        rw [hsz] at h2
        cases h2
        exact hlt
      · rw [if_neg hlt] at he
        cases he

theorem lookupSym_none_of_size_exceeded {tbl : List SymbolTableEntry} {addr : Nat}
    {e : SymbolTableEntry} {sz : Nat}
    (hf : findLastLe SymbolTableEntry.address tbl addr = some e)
    (hsz : e.size = some sz) (hn : ¬ addr < e.address + sz) :
    lookupSym tbl addr = none := by
  simp only [lookupSym, hf, hsz]
  rw [if_neg hn]

theorem lookupSym_boundary {tbl : List SymbolTableEntry} {e : SymbolTableEntry} {sz : Nat}
    (hsz : e.size = some sz) : lookupSym tbl (e.address + sz) ≠ some e := by
  intro hc
  unfold lookupSym at hc
  cases hf : findLastLe SymbolTableEntry.address tbl (e.address + sz) with
  | none =>
    simp only [hf] at hc
    cases hc
  | some r =>
    simp only [hf] at hc
    cases hsz2 : r.size with
    | none =>
      simp only [hsz2] at hc
      cases hc
      rw [hsz] at hsz2
      cases hsz2
    | some sz2 =>
      simp only [hsz2] at hc
      by_cases hlt : e.address + sz < r.address + sz2
      · rw [if_pos hlt] at hc
        cases hc
        rw [hsz] at hsz2
        cases hsz2
        omega
      · rw [if_neg hlt] at hc
        cases hc

/-- Claim C2: on a constructed symbol table, lookup is the nearest-below
search with a size gate, in both directions.  A successful lookup returns
the member entry with the greatest address at most the query address,
satisfying the size gate when the entry carries a size; when the
nearest-below entry carries an exceeded size the lookup reports no match,
and a lookup at exactly address + size never returns that entry; and
conversely, a covered query address always has a nearest-below entry, and
whenever that entry satisfies the size gate the lookup does return it. -/
theorem c2_lookup_nearest_entry (entries : List SymbolTableEntry) (addr : Nat) :
    (∀ e, lookupSym (buildByAddr SymbolTableEntry.address entries) addr = some e →
        e ∈ buildByAddr SymbolTableEntry.address entries ∧ e.address ≤ addr ∧
        (∀ y ∈ buildByAddr SymbolTableEntry.address entries,
            y.address ≤ addr → y.address ≤ e.address) ∧
        ∀ sz, e.size = some sz → addr < e.address + sz) ∧
    (∀ e sz,
        findLastLe SymbolTableEntry.address (buildByAddr SymbolTableEntry.address entries) addr
          = some e →
        e.size = some sz → ¬ addr < e.address + sz →
        lookupSym (buildByAddr SymbolTableEntry.address entries) addr = none) ∧
    (∀ e sz, e.size = some sz →
        lookupSym (buildByAddr SymbolTableEntry.address entries) (e.address + sz) ≠ some e) ∧
    ((∃ y ∈ buildByAddr SymbolTableEntry.address entries, y.address ≤ addr) →
        ∃ e, findLastLe SymbolTableEntry.address (buildByAddr SymbolTableEntry.address entries)
          addr = some e) ∧
    (∀ e,
        findLastLe SymbolTableEntry.address (buildByAddr SymbolTableEntry.address entries) addr
          = some e →
        (∀ sz, e.size = some sz → addr < e.address + sz) →
        lookupSym (buildByAddr SymbolTableEntry.address entries) addr = some e) := by
  refine ⟨fun _ he => lookupSym_some_spec (buildByAddr_sorted _ _) he,
    fun _ _ hf hsz hn => lookupSym_none_of_size_exceeded hf hsz hn,
    fun _ _ hsz => lookupSym_boundary hsz, ?_, ?_⟩
  · rintro ⟨y, hy, hyle⟩
    cases hf : findLastLe SymbolTableEntry.address
        (buildByAddr SymbolTableEntry.address entries) addr with
    | none =>
      exfalso
      have hlt := findLastLe_none hf y hy
      omega
    | some e => exact ⟨e, rfl⟩
  · intro e hf hgate
    simp only [lookupSym, hf]
    cases hsz : e.size with
    | none => simp [hsz]
    | some sz => simp [hsz, hgate sz hsz]

/-- Witness for C2 at the scenario of the spec: entry (0x10, foo, size 0x20);
0x15 is covered and attributed to foo by both the soundness and the
completeness direction, while the boundary address 0x30 = 0x10 + 0x20 is
not attributed. -/
theorem c2_lookup_nearest_entry_witness :
    lookupSym (buildByAddr SymbolTableEntry.address [⟨0x10, "foo", some 0x20⟩]) 0x15
        = some ⟨0x10, "foo", some 0x20⟩ ∧
    ((⟨0x10, "foo", some 0x20⟩ : SymbolTableEntry)
        ∈ buildByAddr SymbolTableEntry.address [⟨0x10, "foo", some 0x20⟩] ∧
      (⟨0x10, "foo", some 0x20⟩ : SymbolTableEntry).address ≤ 0x15 ∧
      (∀ y ∈ buildByAddr SymbolTableEntry.address [⟨0x10, "foo", some 0x20⟩],
          y.address ≤ 0x15 → y.address ≤ (⟨0x10, "foo", some 0x20⟩ : SymbolTableEntry).address) ∧
      ∀ sz, (⟨0x10, "foo", some 0x20⟩ : SymbolTableEntry).size = some sz →
          0x15 < (⟨0x10, "foo", some 0x20⟩ : SymbolTableEntry).address + sz) ∧
    lookupSym (buildByAddr SymbolTableEntry.address [⟨0x10, "foo", some 0x20⟩])
        ((⟨0x10, "foo", some 0x20⟩ : SymbolTableEntry).address + 0x20)
        ≠ some ⟨0x10, "foo", some 0x20⟩ ∧
    (∃ e, findLastLe SymbolTableEntry.address
        (buildByAddr SymbolTableEntry.address [⟨0x10, "foo", some 0x20⟩]) 0x15 = some e) ∧
    lookupSym (buildByAddr SymbolTableEntry.address [⟨0x10, "foo", some 0x20⟩]) 0x15
        = some ⟨0x10, "foo", some 0x20⟩ :=
  ⟨by rfl,
   (c2_lookup_nearest_entry [⟨0x10, "foo", some 0x20⟩] 0x15).1 _ (by rfl),
   (c2_lookup_nearest_entry [⟨0x10, "foo", some 0x20⟩] 0x15).2.2.1
     ⟨0x10, "foo", some 0x20⟩ 0x20 rfl,
   (c2_lookup_nearest_entry [⟨0x10, "foo", some 0x20⟩] 0x15).2.2.2.1
     ⟨⟨0x10, "foo", some 0x20⟩, by decide, by decide⟩,
   (c2_lookup_nearest_entry [⟨0x10, "foo", some 0x20⟩] 0x15).2.2.2.2
     ⟨0x10, "foo", some 0x20⟩ (by rfl) (fun sz hsz => by cases hsz; decide)⟩

theorem lookupSym_mem {tbl : List SymbolTableEntry} {addr : Nat} {e : SymbolTableEntry}
    (he : lookupSym tbl addr = some e) : e ∈ tbl := by
  unfold lookupSym at he
  cases hf : findLastLe SymbolTableEntry.address tbl addr with
  | none =>
    simp only [hf] at he
    cases he
  | some r =>
    simp only [hf] at he
    cases hsz : r.size with
    | none =>
      simp only [hsz] at he
      cases he
      exact findLastLe_mem hf
    | some sz =>
      simp only [hsz] at he
      by_cases hlt : addr < r.address + sz
      · rw [if_pos hlt] at he
        cases he
        exact findLastLe_mem hf
      · rw [if_neg hlt] at he
        cases he

theorem resolveAddr_start_eq {r : Resolver} {q : Nat} {m : SymbolMatch}
    (hm : m ∈ resolveAddr r q) :
    ∃ e, lookupSym r.table q = some e ∧ m.start_address = e.address := by
  unfold resolveAddr at hm
  cases he : lookupSym r.table q with
  | none =>
    simp only [he] at hm
    cases hm
  | some e =>
    simp only [he] at hm
    cases hd : r.debug.bind (fun dl => findLastLe DebugLineEntry.address dl q) with
    | none =>
      simp only [hd] at hm
      rcases List.mem_singleton.mp hm with rfl
      exact ⟨e, rfl, rfl⟩
    | some d =>
      simp only [hd] at hm
      rcases List.mem_singleton.mp hm with rfl
      exact ⟨e, rfl, rfl⟩

theorem loadElf_table_mem {f : ElfFile} {B : Nat} {e : SymbolTableEntry}
    (he : e ∈ (loadElf f B).table) :
    ∃ s ∈ f.symbols, s.defined = true ∧ e = ⟨s.address + B, s.name, s.size⟩ := by
  have h2 := mem_buildByAddr he
  rcases List.mem_map.mp h2 with ⟨s, hs, rfl⟩
  rcases List.mem_filter.mp hs with ⟨hs1, hs2⟩
  exact ⟨s, hs1, by simpa using hs2, rfl⟩

/-- Claim C3: ELF address translation is linear and invertible.  Resolving
runtime address a + B against the source loaded at base B behaves exactly
as resolving link-time address a at base zero, with every reported start
address shifted by B; at a different base B2 the same runtime-relative
query yields matches with the same symbol names and start addresses
shifted by exactly B2 - B; and every reported start address is a defined
link-time symbol address adjusted by the base. -/
theorem c3_translation_linear_invertible (f : ElfFile) (B B2 a : Nat) :
    (resolveAddr (loadElf f B) (a + B)
        = (resolveAddr (loadElf f 0) a).map (shiftMatch B)) ∧
    (resolveAddr (loadElf f B) (a + B) ≠ [] ↔ resolveAddr (loadElf f 0) a ≠ []) ∧
    ((resolveAddr (loadElf f B2) (a + B2)).length
        = (resolveAddr (loadElf f B) (a + B)).length) ∧
    (∀ i (hi : i < (resolveAddr (loadElf f B2) (a + B2)).length)
        (hj : i < (resolveAddr (loadElf f B) (a + B)).length),
        ((resolveAddr (loadElf f B2) (a + B2)).get ⟨i, hi⟩).symbol_name
          = ((resolveAddr (loadElf f B) (a + B)).get ⟨i, hj⟩).symbol_name ∧
        ((resolveAddr (loadElf f B2) (a + B2)).get ⟨i, hi⟩).start_address + B
          = ((resolveAddr (loadElf f B) (a + B)).get ⟨i, hj⟩).start_address + B2) ∧
    (∀ q m, m ∈ resolveAddr (loadElf f B) q →
        ∃ s ∈ f.symbols, s.defined = true ∧ m.start_address = s.address + B) := by
  refine ⟨resolveAddr_loadElf_shift f B a, ?_, ?_, ?_, ?_⟩
  · rw [resolveAddr_loadElf_shift f B a]
    simp
  · rw [resolveAddr_loadElf_shift f B a, resolveAddr_loadElf_shift f B2 a]
    simp
  · intro i hi hj
    simp only [resolveAddr_loadElf_shift f B a, resolveAddr_loadElf_shift f B2 a,
      List.get_eq_getElem, List.getElem_map, shiftMatch]
    exact ⟨trivial, by omega⟩
  · intro q m hm
    rcases resolveAddr_start_eq hm with ⟨e, he, hstart⟩
    rcases loadElf_table_mem (lookupSym_mem he) with ⟨s, hs, hdef, rfl⟩
    exact ⟨s, hs, hdef, by simpa using hstart⟩

/-- Witness for C3 at the scenario of the spec: symbol foo at link address
0x10 under bases 0x1000 and 0x2000, queried at 0x15 past its start. -/
theorem c3_translation_linear_invertible_witness :
    (resolveAddr (loadElf testFile 0x1000) (0x15 + 0x1000)
        = (resolveAddr (loadElf testFile 0) 0x15).map (shiftMatch 0x1000)) ∧
    (((resolveAddr (loadElf testFile 0x2000) (0x15 + 0x2000)).get ⟨0, by decide⟩).symbol_name
        = ((resolveAddr (loadElf testFile 0x1000) (0x15 + 0x1000)).get ⟨0, by decide⟩).symbol_name ∧
      ((resolveAddr (loadElf testFile 0x2000) (0x15 + 0x2000)).get ⟨0, by decide⟩).start_address + 0x1000
        = ((resolveAddr (loadElf testFile 0x1000) (0x15 + 0x1000)).get ⟨0, by decide⟩).start_address + 0x2000) ∧
    (∃ s ∈ testFile.symbols, s.defined = true ∧
      (⟨"foo", 0x1010, some "a.c", some 5, some 2⟩ : SymbolMatch).start_address
        = s.address + 0x1000) :=
  ⟨(c3_translation_linear_invertible testFile 0x1000 0x2000 0x15).1,
   (c3_translation_linear_invertible testFile 0x1000 0x2000 0x15).2.2.2.1 0 (by decide) (by decide),
   (c3_translation_linear_invertible testFile 0x1000 0x2000 0x15).2.2.2.2 (0x15 + 0x1000)
     ⟨"foo", 0x1010, some "a.c", some 5, some 2⟩ (by decide)⟩

/-- Claim C4: when the source provides no debug information covering the
matched address, the optional fields of every produced SymbolMatch are the
distinct absent value, which is different from an empty-string path and
from a zero line or column. -/
theorem c4_absent_fields_distinct (r : Resolver) (addr : Nat) (m : SymbolMatch)
    (hdbg : r.debug.bind (fun dl => findLastLe DebugLineEntry.address dl addr) = none)
    (hm : m ∈ resolveAddr r addr) :
    m.source_file_path = none ∧ m.line = none ∧ m.column = none ∧
    m.source_file_path ≠ some "" ∧ m.line ≠ some 0 ∧ m.column ≠ some 0 := by
  unfold resolveAddr at hm
  cases he : lookupSym r.table addr with
  | none =>
    simp only [he] at hm
    cases hm
  | some e =>
    simp only [he, hdbg] at hm
    rcases List.mem_singleton.mp hm with rfl
    exact ⟨rfl, rfl, rfl, by simp, by simp, by simp⟩

/-- Witness for C4: a source without debug information yields a match whose
optional fields are all absent. -/
theorem c4_absent_fields_distinct_witness :
    ((loadElf testFilePlain 0).debug.bind
        (fun dl => findLastLe DebugLineEntry.address dl 0x45) = none) ∧
    ((⟨"bar", 0x40, none, none, none⟩ : SymbolMatch)
        ∈ resolveAddr (loadElf testFilePlain 0) 0x45) ∧
    ((⟨"bar", 0x40, none, none, none⟩ : SymbolMatch).source_file_path = none ∧
      (⟨"bar", 0x40, none, none, none⟩ : SymbolMatch).line = none ∧
      (⟨"bar", 0x40, none, none, none⟩ : SymbolMatch).column = none ∧
      (⟨"bar", 0x40, none, none, none⟩ : SymbolMatch).source_file_path ≠ some "" ∧
      (⟨"bar", 0x40, none, none, none⟩ : SymbolMatch).line ≠ some 0 ∧
      (⟨"bar", 0x40, none, none, none⟩ : SymbolMatch).column ≠ some 0) :=
  ⟨rfl, by decide,
   c4_absent_fields_distinct (loadElf testFilePlain 0) 0x45 _ rfl (by decide)⟩

/-- Claim C5: when every configured source loads, the call succeeds no
matter what the addresses are, the result has one match list per address,
and an address matched by no resolver gets the empty match list rather
than an error. -/
theorem c5_no_match_is_empty_not_error (w : World) (srcs : List SourceDescriptor)
    (addrs : List Nat) (resolvers : List Resolver)
    (h : loadAll w srcs = .ok resolvers) :
    ∃ res, symbolize w srcs addrs = .ok res ∧ res.length = addrs.length ∧
      ∀ i (hi : i < addrs.length) (hj : i < res.length),
        (∀ r ∈ resolvers, resolveAddr r (addrs.get ⟨i, hi⟩) = []) →
          res.get ⟨i, hj⟩ = [] := by
  refine ⟨addrs.map (fun a => perAddress resolvers a), ?_, by simp, ?_⟩
  · unfold symbolize
    rw [h]
  · intro i hi hj hall
    simp only [List.get_eq_getElem, List.getElem_map]
    exact perAddress_nil_of_all_nil hall

/-- Witness for C5: one well-loaded ELF source queried at an uncovered
address still succeeds with an empty match list. -/
theorem c5_no_match_is_empty_not_error_witness :
    loadAll testWorld [.elf "/bin/app" 0x1000] = .ok [loadElf testFile 0x1000] ∧
    (∃ res, symbolize testWorld [.elf "/bin/app" 0x1000] [0x5] = .ok res ∧
      res.length = ([0x5] : List Nat).length ∧
      ∀ i (hi : i < ([0x5] : List Nat).length) (hj : i < res.length),
        (∀ r ∈ [loadElf testFile 0x1000],
            resolveAddr r (([0x5] : List Nat).get ⟨i, hi⟩) = []) →
          res.get ⟨i, hj⟩ = []) :=
  ⟨by rfl,
   c5_no_match_is_empty_not_error testWorld [.elf "/bin/app" 0x1000] [0x5]
     [loadElf testFile 0x1000] (by rfl)⟩

/-- Claim C6: when a configured source fails to load, the whole call
surfaces a load error that does not depend on the input addresses, so no
per-address results are produced for the batch. -/
theorem c6_load_failure_fails_batch (w : World) (srcs : List SourceDescriptor)
    (h : ∃ s ∈ srcs, ∃ e, loadSource w s = .error e) :
    ∃ e2, ∀ addrs : List Nat, symbolize w srcs addrs = .error e2 := by
  rcases loadAll_error_of_mem w srcs h with ⟨e2, h2⟩
  refine ⟨e2, fun addrs => ?_⟩
  unfold symbolize
  rw [h2]

/-- Witness for C6: a missing ELF path fails the batch for every address
list. -/
theorem c6_load_failure_fails_batch_witness :
    (∃ s ∈ [SourceDescriptor.elf "/missing" 0], ∃ e, loadSource testWorld s = .error e) ∧
    (∃ e2, ∀ addrs : List Nat,
        symbolize testWorld [SourceDescriptor.elf "/missing" 0] addrs = .error e2) :=
  ⟨⟨SourceDescriptor.elf "/missing" 0, List.mem_singleton.mpr rfl, LoadError.NotFound, by rfl⟩,
   c6_load_failure_fails_batch testWorld [SourceDescriptor.elf "/missing" 0]
     ⟨SourceDescriptor.elf "/missing" 0, List.mem_singleton.mpr rfl, LoadError.NotFound, by rfl⟩⟩

/-- Claim C7: kallsyms construction skips every address-zero line: no entry
of the constructed table has address zero, and a find for address 0 on the
resolver returns no symbol. -/
theorem c7_kallsyms_zero_lines_skipped (lines : List KallsymsLine) :
    (∀ e ∈ parseKallsyms lines, e.address ≠ 0) ∧
    sym_resolver_find_addr (ksymResolverOfLines lines) 0 = none := by
  have h1 : ∀ e ∈ parseKallsyms lines, e.address ≠ 0 := by
    intro e he
    have h2 := mem_buildByAddr he
    rcases List.mem_map.mp h2 with ⟨l, hl, rfl⟩
    rcases List.mem_filter.mp hl with ⟨_, hl2⟩
    simpa using hl2
  refine ⟨h1, ?_⟩
  show (lookupSym (parseKallsyms lines) 0).map (fun e => e.name) = none
  cases hf : findLastLe SymbolTableEntry.address (parseKallsyms lines) 0 with
  | none => simp [lookupSym, hf]
  | some r =>
    have hr0 : r.address = 0 := Nat.le_zero.mp (findLastLe_le hf)
    exact absurd hr0 (h1 r (findLastLe_mem hf))

/-- Witness for C7 on a snapshot holding an address-zero line: the
resolvable entry is nonzero and address 0 resolves to nothing. -/
theorem c7_kallsyms_zero_lines_skipped_witness :
    ((⟨0x100, "kfunc", none⟩ : SymbolTableEntry) ∈ parseKallsyms testKallsyms →
        (⟨0x100, "kfunc", none⟩ : SymbolTableEntry).address ≠ 0) ∧
    sym_resolver_find_addr (ksymResolverOfLines testKallsyms) 0 = none :=
  ⟨fun h => (c7_kallsyms_zero_lines_skipped testKallsyms).1 _ h,
   (c7_kallsyms_zero_lines_skipped testKallsyms).2⟩

/-- Claim C8: construction sorts entries strictly ascending by address, and
on duplicate addresses the last-inserted entry wins: the nearest-below
search at a duplicated address finds exactly the last entry of the input
sequence carrying that address, never an earlier one. -/
theorem c8_sorted_last_inserted_wins (entries : List SymbolTableEntry) (a : Nat) :
    SortedBy SymbolTableEntry.address (buildByAddr SymbolTableEntry.address entries) ∧
    ∀ e, entries.reverse.find? (fun x => x.address == a) = some e →
      findLastLe SymbolTableEntry.address (buildByAddr SymbolTableEntry.address entries) a
        = some e := by
  refine ⟨buildByAddr_sorted _ _, ?_⟩
  intro e he
  have hfind : (buildByAddr SymbolTableEntry.address entries).find?
      (fun x => x.address == a) = some e := by
    rw [buildByAddr_find]
    exact he
  have hmem : e ∈ buildByAddr SymbolTableEntry.address entries :=
    List.mem_of_find?_eq_some hfind
  have hea : e.address = a := by simpa using List.find?_some hfind
  have hsort := buildByAddr_sorted SymbolTableEntry.address entries
  cases hf : findLastLe SymbolTableEntry.address (buildByAddr SymbolTableEntry.address entries) a with
  | none =>
    exfalso
    have hx := findLastLe_none hf e hmem
    omega
  | some r =>
    have hrle := findLastLe_le hf
    have hge := findLastLe_greatest hsort r hf e hmem (le_of_eq hea)
    have hra : r.address = e.address := by omega
    rw [sortedBy_key_inj hsort r (findLastLe_mem hf) e hmem hra]

/-- Witness for C8: two entries inserted at the same address; the search
returns the second (last-inserted) one, not the first. -/
theorem c8_sorted_last_inserted_wins_witness :
    c8entries.reverse.find? (fun x => x.address == 0x5) = some ⟨0x5, "second", none⟩ ∧
    findLastLe SymbolTableEntry.address (buildByAddr SymbolTableEntry.address c8entries) 0x5
      = some ⟨0x5, "second", none⟩ :=
  ⟨by rfl,
   (c8_sorted_last_inserted_wins c8entries 0x5).2 ⟨0x5, "second", none⟩ (by rfl)⟩

/-- Claim C9: every flat result produced by blazesym_symbolize keeps the
header invariants: its size field equals the number of entries, there is
one entry per input address, and each entry references exactly size symbol
records (possibly zero). -/
theorem c9_flat_result_size_invariant (w : World) (srcs : List SourceDescriptor)
    (addrs : List Nat) (res : blazesym_result)
    (h : blazesym_symbolize w srcs addrs = some res) :
    res.size = res.entries.length ∧ res.entries.length = addrs.length ∧
    ∀ ent ∈ res.entries, ent.size = ent.syms.length := by
  unfold blazesym_symbolize at h
  cases hs : symbolize w srcs addrs with
  | error e =>
    simp only [hs] at h
    cases h
  | ok qr =>
    simp only [hs] at h
    cases h
    rcases symbolize_ok_shape hs with ⟨rs, _, rfl⟩
    refine ⟨?_, ?_, ?_⟩
    · simp [resultOfQuery]
    · simp [resultOfQuery]
    · intro ent hent
      simp only [resultOfQuery] at hent
      rcases List.mem_map.mp hent with ⟨ms, _, rfl⟩
      simp [entryOfMatches]

/-- Witness for C9: a concrete flat result with an empty and a nonempty
entry keeps all size fields consistent. -/
theorem c9_flat_result_size_invariant_witness :
    blazesym_symbolize testWorld [.elf "/bin/app" 0x1000] [0x5, 0x1015] = some c9res ∧
    (c9res.size = c9res.entries.length ∧
      c9res.entries.length = ([0x5, 0x1015] : List Nat).length ∧
      ∀ ent ∈ c9res.entries, ent.size = ent.syms.length) :=
  ⟨by rfl,
   c9_flat_result_size_invariant testWorld [.elf "/bin/app" 0x1000] [0x5, 0x1015] c9res (by rfl)⟩

/-- Claim C10: sym_resolver_find_addr returns the null pointer (none) for an
address below every symbol of the loaded kallsyms table; a covered address
(one at or above some table entry) always yields a name, namely the name of
the symbol with the greatest address at most the query; and any returned
string is one stored in (owned by) the resolver's own table. -/
theorem c10_ksym_find_addr_none_or_owned (lines : List KallsymsLine) (addr : Nat) :
    ((∀ e ∈ (ksymResolverOfLines lines).table, addr < e.address) →
        sym_resolver_find_addr (ksymResolverOfLines lines) addr = none) ∧
    (∀ nm, sym_resolver_find_addr (ksymResolverOfLines lines) addr = some nm →
        ∃ e ∈ (ksymResolverOfLines lines).table, e.name = nm ∧ e.address ≤ addr ∧
          ∀ y ∈ (ksymResolverOfLines lines).table, y.address ≤ addr → y.address ≤ e.address) ∧
    ((∃ y ∈ (ksymResolverOfLines lines).table, y.address ≤ addr) →
        ∃ e ∈ (ksymResolverOfLines lines).table, e.address ≤ addr ∧
          (∀ y ∈ (ksymResolverOfLines lines).table, y.address ≤ addr → y.address ≤ e.address) ∧
          sym_resolver_find_addr (ksymResolverOfLines lines) addr = some e.name) := by
  refine ⟨?_, ?_, ?_⟩
  · intro hcov
    show (lookupSym (ksymResolverOfLines lines).table addr).map (fun e => e.name) = none
    cases hf : findLastLe SymbolTableEntry.address (ksymResolverOfLines lines).table addr with
    | none => simp [lookupSym, hf]
    | some r =>
      exfalso
      have h1 := findLastLe_le hf
      have h2 := hcov r (findLastLe_mem hf)
      omega
  · intro nm hnm
    have he2 : ∃ e, lookupSym (ksymResolverOfLines lines).table addr = some e ∧ e.name = nm := by
      cases he : lookupSym (ksymResolverOfLines lines).table addr with
      | none => simp [sym_resolver_find_addr, he] at hnm
      | some e =>
        refine ⟨e, rfl, ?_⟩
        simp [sym_resolver_find_addr, he] at hnm
        exact hnm
    rcases he2 with ⟨e, he, rfl⟩
    have hs : SortedBy SymbolTableEntry.address (ksymResolverOfLines lines).table :=
      buildByAddr_sorted _ _
    rcases lookupSym_some_spec hs he with ⟨hmem, hle, hgr, _⟩
    exact ⟨e, hmem, rfl, hle, hgr⟩
  · rintro ⟨y, hy, hyle⟩
    cases hf : findLastLe SymbolTableEntry.address (ksymResolverOfLines lines).table addr with
    | none =>
      exfalso
      have hlt := findLastLe_none hf y hy
      omega
    | some e =>
      have hmem := findLastLe_mem hf
      have hle := findLastLe_le hf
      have hgr := findLastLe_greatest (buildByAddr_sorted _ _) e hf
      have hsz : e.size = none := by
        have h2 := mem_buildByAddr hmem
        rcases List.mem_map.mp h2 with ⟨l, _, rfl⟩
        rfl
      refine ⟨e, hmem, hle, hgr, ?_⟩
      show (lookupSym (ksymResolverOfLines lines).table addr).map (fun x => x.name)
          = some e.name
      simp only [lookupSym, hf, hsz, Option.map]

/-- Witness for C10: address 0x50 lies below the only symbol and yields the
null result; address 0x150 is covered, so a name is returned, namely the
owned name kfunc of the greatest entry at most 0x150. -/
theorem c10_ksym_find_addr_none_or_owned_witness :
    (∀ e ∈ (ksymResolverOfLines testKallsyms).table, (0x50 : Nat) < e.address) ∧
    sym_resolver_find_addr (ksymResolverOfLines testKallsyms) 0x50 = none ∧
    sym_resolver_find_addr (ksymResolverOfLines testKallsyms) 0x150 = some "kfunc" ∧
    (∃ e ∈ (ksymResolverOfLines testKallsyms).table, e.name = "kfunc" ∧ e.address ≤ 0x150 ∧
      ∀ y ∈ (ksymResolverOfLines testKallsyms).table, y.address ≤ 0x150 → y.address ≤ e.address) ∧
    (∃ e ∈ (ksymResolverOfLines testKallsyms).table, e.address ≤ 0x150 ∧
      (∀ y ∈ (ksymResolverOfLines testKallsyms).table, y.address ≤ 0x150 → y.address ≤ e.address) ∧
      sym_resolver_find_addr (ksymResolverOfLines testKallsyms) 0x150 = some e.name) :=
  ⟨by decide,
   (c10_ksym_find_addr_none_or_owned testKallsyms 0x50).1 (by decide),
   by rfl,
   (c10_ksym_find_addr_none_or_owned testKallsyms 0x150).2.1 "kfunc" (by rfl),
   (c10_ksym_find_addr_none_or_owned testKallsyms 0x150).2.2
     ⟨⟨0x100, "kfunc", none⟩, by decide, by decide⟩⟩
